import Mathlib

/-!
# A shallow embedding of the mini-vue3 reactivity core

This file models the reactivity engine of the repository:

* `effect.ts`: the dependency graph `targetMap`, the global `activeEffect`
  slot, the class `ReactiveEffect` (fields `active`, `deps`, `fn`,
  `scheduler`; methods `run`, `stop`), and the functions `effect`, `track`,
  `trigger`, `cleanupEffect`;
* `reactive.ts` (the proxy factory): the `get` handler (`track` then
  `Reflect.get`), the `set` handler (read old value, `Reflect.set`, call
  `trigger` only when the old value is not strictly equal to the new one),
  the `reactiveMap` cache and the `IS_REACTIVE` flag.

JavaScript objects are modelled by numeric identities (`TargetId`), effect
objects by `EffectId`, property keys by strings, and JS values by the
inductive `Value` (strict equality `===` becomes decidable equality on
`Value`; object values compare by identity, as in JS).  The `WeakMap`s,
`Map`s and `Set`s become insertion-ordered association lists, matching the
iteration order of the JS collections.

User-supplied effect functions are modelled by the small first-order
language `Prog`, whose statements are exactly the operations such a
function can perform against the engine: read a property of a wrapped
object, write one, branch on the last read value, call another effect's
runner, call `stop`, throw, or return.  A fuel-indexed interpreter `step`
gives the operational semantics; `none` means the computation did not
finish within the given fuel (in particular, a computation that diverges
for every fuel diverges in JS).  `step` additionally returns, for the
`set`/`trigger` tasks, the ghost list of subscribers the trigger processed
directly, each paired with `true` when its scheduler was invoked instead
of its `run`.
-/

/-- Identity of a raw JS object used as a reactive target. -/
abbrev TargetId := Nat

/-- Identity of a `ReactiveEffect` object. -/
abbrev EffectId := Nat

/-- A property key. -/
abbrev Key := String

/-- JS values, compared with strict equality (`===`).  Objects compare by
identity. -/
inductive Value where
  | undefined : Value
  | vint (n : Int) : Value
  | vstr (s : String) : Value
  | vobj (t : TargetId) : Value
deriving DecidableEq, Repr

/-- Association-list lookup, mirroring `Map.get` / `WeakMap.get`. -/
def alookup {α β : Type} [DecidableEq α] : List (α × β) → α → Option β
  | [], _ => none
  | (a, b) :: rest, x => if a = x then some b else alookup rest x

/-- Association-list update, mirroring `Map.set` / `WeakMap.set`: replaces
in place when the key is present, otherwise appends (JS `Map` keeps
insertion order). -/
def aset {α β : Type} [DecidableEq α] : List (α × β) → α → β → List (α × β)
  | [], x, v => [(x, v)]
  | (a, b) :: rest, x, v => if a = x then (a, v) :: rest else (a, b) :: aset rest x v

/-- Expressions available to a modelled effect function: a constant, the
value last read, or that value plus an integer. -/
inductive Exp where
  | constE (v : Value) : Exp
  | regE : Exp
  | addE (n : Int) : Exp
deriving DecidableEq, Repr

/-- Evaluate an expression given the last-read value. -/
def evalExp : Exp → Value → Value
  | .constE v, _ => v
  | .regE, r => r
  | .addE n, r =>
    match r with
    | .vint m => .vint (m + n)
    | _ => .undefined

/-- The body of a user effect function, as the sequence of engine-visible
operations it performs.  `pread` stores the value read into the single
register that `regE` refers to; `pif` branches on that register. -/
inductive Prog where
  | ret (e : Exp) : Prog
  | pthrow (m : String) : Prog
  | pread (t : TargetId) (k : Key) (next : Prog) : Prog
  | pwrite (t : TargetId) (k : Key) (e : Exp) (next : Prog) : Prog
  | pif (c : Value) (thn els : Prog) : Prog
  | prun (e : EffectId) (next : Prog) : Prog
  | pstop (e : EffectId) (next : Prog) : Prog
deriving DecidableEq, Repr

/-- The per-effect record: the fields of class `ReactiveEffect`.
`scheduler` is `true` when a scheduler callback is attached (the engine
only ever tests it for truthiness and invokes it); `deps` names, by
`(target, key)`, the dependency sets this effect has been added to,
mirroring the `deps: Dep[]` array of set references. -/
structure EffectRec where
  fn : Prog
  scheduler : Bool
  active : Bool
  deps : List (TargetId × Key)
deriving DecidableEq, Repr

/-- The whole engine state: raw object stores, the dependency graph
`targetMap`, the registry of effect objects, the global `activeEffect`
slot, and a log of scheduler invocations. -/
structure SysState where
  store : List (TargetId × List (Key × Value))
  targetMap : List (TargetId × List (Key × List EffectId))
  effects : List (EffectId × EffectRec)
  activeEffect : Option EffectId
  schedLog : List EffectId
deriving DecidableEq, Repr

/-- The dependency set of `(t, k)`: `targetMap.get(t)?.get(k)`, empty when
absent. -/
def depOf (st : SysState) (t : TargetId) (k : Key) : List EffectId :=
  (alookup ((alookup st.targetMap t).getD []) k).getD []

/-- Read `target[key]`: reading a missing property yields `undefined`. -/
def storeGet (st : SysState) (t : TargetId) (k : Key) : Value :=
  (alookup ((alookup st.store t).getD []) k).getD Value.undefined

/-- Perform `Reflect.set(target, key, value)`. -/
def storeSet (st : SysState) (t : TargetId) (k : Key) (v : Value) : SysState :=
  { st with store := aset st.store t (aset ((alookup st.store t).getD []) k v) }

/-- Update one effect record in the registry (no-op when absent). -/
def updEff (l : List (EffectId × EffectRec)) (e : EffectId)
    (f : EffectRec → EffectRec) : List (EffectId × EffectRec) :=
  l.map fun p => if p.1 = e then (p.1, f p.2) else p

/-- The function `track(target, key)` from `effect.ts`: if there is no `activeEffect`,
return immediately; otherwise find or create the dependency set of
`(target, key)`, and if the active effect is not yet in it, add it and push
the set onto the effect's `deps`. -/
def track (st : SysState) (t : TargetId) (k : Key) : SysState :=
  match st.activeEffect with
  | none => st
  | some ae =>
    let depsMap := (alookup st.targetMap t).getD []
    let dep := (alookup depsMap k).getD []
    if ae ∈ dep then st
    else
      { st with
        targetMap := aset st.targetMap t (aset depsMap k (dep ++ [ae])),
        effects := updEff st.effects ae fun r => { r with deps := r.deps ++ [(t, k)] } }

/-- One `deps[i].delete(effect)` deletion: remove effect `e` from the dependency set
stored in the graph at `tk`. -/
def rmFrom (e : EffectId) (tm : List (TargetId × List (Key × List EffectId)))
    (tk : TargetId × Key) : List (TargetId × List (Key × List EffectId)) :=
  let depsMap := (alookup tm tk.1).getD []
  let dep := (alookup depsMap tk.2).getD []
  aset tm tk.1 (aset depsMap tk.2 (dep.filter fun x => x != e))

/-- The function `cleanupEffect(effect)` from `effect.ts`: when `deps` is nonempty,
delete the effect from every dependency set recorded in `deps`, then clear
the `deps` array. -/
def cleanupEffect (st : SysState) (e : EffectId) : SysState :=
  match alookup st.effects e with
  | none => st
  | some er =>
    if er.deps = [] then st
    else
      { st with
        targetMap := er.deps.foldl (rmFrom e) st.targetMap,
        effects := updEff st.effects e fun r => { r with deps := [] } }

/-- The method `ReactiveEffect.stop`: when the effect is active, mark it inactive and
run `cleanupEffect`; otherwise do nothing. -/
def stop (st : SysState) (e : EffectId) : SysState :=
  match alookup st.effects e with
  | none => st
  | some er =>
    if er.active then
      cleanupEffect { st with effects := updEff st.effects e fun r => { r with active := false } } e
    else st

/-- The proxy `get` handler for an ordinary key: `track(target, key)` then
`Reflect.get`. -/
def getHandler (st : SysState) (t : TargetId) (k : Key) : SysState × Value :=
  (track st t k, storeGet st t k)

/-- Result of running a piece of modelled JS: a normal value or a thrown
exception. -/
inductive ERes where
  | ok (v : Value) : ERes
  | err (m : String) : ERes
deriving DecidableEq, Repr

/-- The tasks of the interpreter: run an effect (`ReactiveEffect.run`),
execute a program with the given register value, perform a proxy `set`,
perform `trigger`, or process a snapshot list of subscribers (the body of
`trigger`'s `forEach`). -/
inductive Job where
  | runT (e : EffectId) : Job
  | progT (p : Prog) (reg : Value) : Job
  | setT (t : TargetId) (k : Key) (v : Value) : Job
  | trigT (t : TargetId) (k : Key) : Job
  | listT (l : List EffectId) : Job
deriving DecidableEq, Repr

/-- Interpreter result: final state, normal/thrown outcome, and the ghost
list of subscribers directly processed by the task's trigger (paired with
`true` when the scheduler branch was taken). -/
abbrev StepRes := SysState × ERes × List (EffectId × Bool)

/-- Fuel-indexed operational semantics.  Each constructor mirrors its
source line by line:

* `runT`: `run()` — when inactive, just execute `fn`; when active, set
  `activeEffect` to this effect, execute `fn`, and in the `finally` set
  `activeEffect` back to `undefined` on both the normal and the throwing
  path;
* `progT`: execute the user function's next operation; reads go through
  the proxy `get` handler, writes through the `set` task;
* `setT`: the proxy `set` handler — read the old value, perform the
  underlying write, and call `trigger` only when old `!==` new;
* `trigT`: `trigger(target, key)` — look up the dependency set and, if
  present, iterate over a snapshot copy of it;
* `listT`: the `forEach` over the snapshot — for each subscriber, invoke
  its scheduler if it has one, otherwise call `run()`; a thrown exception
  aborts the iteration and propagates.

`none` means the fuel ran out (or, for `runT`/`listT`, that an effect id
is not in the registry, which cannot happen for states built by the
engine). -/
def step : Nat → Job → SysState → Option StepRes
  | 0, _, _ => none
  | fuel + 1, task, st =>
    match task with
    | .runT e =>
      match alookup st.effects e with
      | none => none
      | some er =>
        if er.active then
          match step fuel (.progT er.fn Value.undefined) { st with activeEffect := some e } with
          | none => none
          | some (st1, r, _) => some ({ st1 with activeEffect := none }, r, [])
        else
          match step fuel (.progT er.fn Value.undefined) st with
          | none => none
          | some (st1, r, _) => some (st1, r, [])
    | .progT p reg =>
      match p with
      | .ret e => some (st, .ok (evalExp e reg), [])
      | .pthrow m => some (st, .err m, [])
      | .pread t k next =>
        let rd := getHandler st t k
        step fuel (.progT next rd.2) rd.1
      | .pwrite t k e next =>
        match step fuel (.setT t k (evalExp e reg)) st with
        | none => none
        | some (st1, .err m, _) => some (st1, .err m, [])
        | some (st1, .ok _, _) => step fuel (.progT next reg) st1
      | .pif c thn els =>
        step fuel (.progT (if reg = c then thn else els) reg) st
      | .prun e next =>
        match step fuel (.runT e) st with
        | none => none
        | some (st1, .err m, _) => some (st1, .err m, [])
        | some (st1, .ok _, _) => step fuel (.progT next reg) st1
      | .pstop e next =>
        step fuel (.progT next reg) (stop st e)
    | .setT t k v =>
      let oldValue := storeGet st t k
      let st1 := storeSet st t k v
      if oldValue ≠ v then
        step fuel (.trigT t k) st1
      else
        some (st1, .ok Value.undefined, [])
    | .trigT t k =>
      match alookup st.targetMap t with
      | none => some (st, .ok Value.undefined, [])
      | some depsMap =>
        match alookup depsMap k with
        | none => some (st, .ok Value.undefined, [])
        | some dep => step fuel (.listT dep) st
    | .listT [] => some (st, .ok Value.undefined, [])
    | .listT (e :: rest) =>
      match alookup st.effects e with
      | none => none
      | some er =>
        if er.scheduler then
          match step fuel (.listT rest) { st with schedLog := st.schedLog ++ [e] } with
          | none => none
          | some (st1, r, procs) => some (st1, r, (e, true) :: procs)
        else
          match step fuel (.runT e) st with
          | none => none
          | some (st1, .err m, _) => some (st1, .err m, [(e, false)])
          | some (st1, .ok _, _) =>
            match step fuel (.listT rest) st1 with
            | none => none
            | some (st2, r, procs) => some (st2, r, (e, false) :: procs)

/-- The function `effect(fn)`: create a `ReactiveEffect` with no scheduler and run it
once immediately.  The caller picks a fresh id for the new effect object. -/
def effectReg (fuel : Nat) (st : SysState) (id : EffectId) (fn : Prog) : Option StepRes :=
  step fuel (.runT id)
    { st with effects := st.effects ++ [(id, { fn := fn, scheduler := false, active := true, deps := [] })] }

/-- State of the proxy factory `reactive`: `reactiveMap` caches raw target
↦ proxy (the `WeakMap`), `proxies` registers proxy ↦ raw target (a proxy
answers `true` to the `IS_REACTIVE` flag read), and `nextId` allocates
fresh object identities for `new Proxy(...)`. -/
structure RState where
  reactiveMap : List (TargetId × TargetId)
  proxies : List (TargetId × TargetId)
  nextId : TargetId
deriving DecidableEq, Repr

/-- The factory `reactive(target)`:

* a non-object (or `null`) argument is returned unchanged;
* if `target[IS_REACTIVE]` is truthy (i.e. `target` is itself one of our
  proxies, whose `get` handler answers `true` to the flag), return it;
* if the cache already holds a proxy for `target`, return the cached one;
* otherwise create a fresh proxy, cache it, and return it. -/
def reactive (st : RState) (v : Value) : RState × Value :=
  match v with
  | .vobj t =>
    if (alookup st.proxies t).isSome then (st, .vobj t)
    else
      match alookup st.reactiveMap t with
      | some p => (st, .vobj p)
      | none =>
        let p := st.nextId
        ({ reactiveMap := aset st.reactiveMap t p,
           proxies := aset st.proxies p t,
           nextId := p + 1 }, .vobj p)
  | w => (st, w)

/-- Well-formedness of the factory state: every object identity mentioned
is below the allocation counter, and every cached proxy is registered as a
proxy. -/
def RWF (st : RState) : Prop :=
  (∀ pr ∈ st.proxies, pr.1 < st.nextId ∧ pr.2 < st.nextId) ∧
  (∀ pr ∈ st.reactiveMap, pr.1 < st.nextId ∧ pr.2 < st.nextId) ∧
  (∀ pr ∈ st.reactiveMap, (alookup st.proxies pr.2).isSome)

theorem alookup_aset_self {α β : Type} [DecidableEq α] (l : List (α × β)) (x : α) (v : β) :
    alookup (aset l x v) x = some v := by
  induction l with
  | nil => simp [aset, alookup]
  | cons hd tl ih =>
    by_cases h : hd.1 = x <;> simp [aset, alookup, h, ih]

theorem alookup_aset_ne {α β : Type} [DecidableEq α] (l : List (α × β)) (x y : α) (v : β)
    (h : x ≠ y) : alookup (aset l x v) y = alookup l y := by
  induction l with
  | nil => simp [aset, alookup, h]
  | cons hd tl ih =>
    by_cases h2 : hd.1 = x <;> simp [aset, alookup, h2, ih, h]

theorem mem_aset {α β : Type} [DecidableEq α] (l : List (α × β)) (x : α) (v : β)
    (p : α × β) (hp : p ∈ aset l x v) : p = (x, v) ∨ p ∈ l := by
  induction l with
  | nil => simpa [aset] using hp
  | cons hd tl ih =>
    by_cases h : hd.1 = x
    · simp [aset, h] at hp
      rcases hp with h1 | h1
      · left; exact h1
      · right; simp [h1]
    · simp [aset, h] at hp
      rcases hp with h1 | h1
      · right; simp [h1]
      · rcases ih h1 with h2 | h2
        · left; exact h2
        · right; simp [h2]

theorem alookup_mem {α β : Type} [DecidableEq α] (l : List (α × β)) (x : α) (b : β)
    (h : alookup l x = some b) : (x, b) ∈ l := by
  induction l with
  | nil => simp [alookup] at h
  | cons hd tl ih =>
    by_cases h2 : hd.1 = x
    · subst h2
      simp [alookup] at h
      rw [← h]
      simp
    · simp [alookup, h2] at h
      exact List.mem_cons_of_mem hd (ih h)

theorem alookup_updEff (l : List (EffectId × EffectRec)) (e : EffectId)
    (g : EffectRec → EffectRec) (x : EffectId) :
    alookup (updEff l e g) x = if x = e then (alookup l x).map g else alookup l x := by
  induction l with
  | nil => simp [alookup, updEff]
  | cons hd tl ih =>
    simp only [updEff, List.map_cons]
    by_cases h1 : hd.1 = e
    · rw [if_pos h1]
      by_cases h2 : hd.1 = x
      · subst h2
        simp [alookup, h1]
      · have hxe : ¬ x = e := fun hh => h2 (by rw [h1, hh])
        simp only [updEff] at ih
        simp [alookup, h2, hxe, ih]
    · rw [if_neg h1]
      by_cases h2 : hd.1 = x
      · subst h2
        simp [alookup, h1]
      · simp only [updEff] at ih
        simp [alookup, h2, ih]

/-- A lighter view of the effect registry: everything except the mutable
`active`/`deps` fields, i.e. the identity, user function and scheduler of
each registered effect.  No engine operation ever changes this view. -/
def coreView (st : SysState) (e : EffectId) : Option (Prog × Bool) :=
  (alookup st.effects e).map fun er => (er.fn, er.scheduler)

/-- The scheduler flag of a registered effect (`false` when absent). -/
def schedOf (st : SysState) (e : EffectId) : Bool :=
  ((alookup st.effects e).map fun er => er.scheduler).getD false

theorem coreView_track (st : SysState) (t : TargetId) (k : Key) (e : EffectId) :
    coreView (track st t k) e = coreView st e := by
  unfold track
  rcases st.activeEffect with _ | ae
  · rfl
  · dsimp only
    split
    · rfl
    · simp only [coreView, alookup_updEff]
      split
      · rcases alookup st.effects e with _ | er <;> rfl
      · rfl

theorem coreView_cleanup (st : SysState) (e2 : EffectId) (e : EffectId) :
    coreView (cleanupEffect st e2) e = coreView st e := by
  unfold cleanupEffect
  rcases alookup st.effects e2 with _ | er
  · rfl
  · dsimp only
    split
    · rfl
    · simp only [coreView, alookup_updEff]
      split
      · rcases alookup st.effects e with _ | er2 <;> rfl
      · rfl

theorem coreView_stop (st : SysState) (e2 : EffectId) (e : EffectId) :
    coreView (stop st e2) e = coreView st e := by
  unfold stop
  rcases h : alookup st.effects e2 with _ | er
  · rfl
  · dsimp only
    split
    · rw [coreView_cleanup]
      simp only [coreView, alookup_updEff]
      split
      · rcases alookup st.effects e with _ | er2 <;> rfl
      · rfl
    · rfl

/-- Any property preserved by the primitive state transformations the
engine performs (tracking, stopping, raw writes, setting the active slot
to a registered active effect, clearing it, appending to the scheduler
log) is an invariant of every interpreter execution. -/
theorem step_preserves (P : SysState → Prop)
    (hTrack : ∀ st t k, P st → P (track st t k))
    (hStop : ∀ st e, P st → P (stop st e))
    (hSet : ∀ st t k v, P st → P (storeSet st t k v))
    (hSlotA : ∀ st e er, alookup st.effects e = some er → er.active = true →
      P st → P { st with activeEffect := some e })
    (hSlotN : ∀ st, P st → P { st with activeEffect := none })
    (hLog : ∀ st e, P st → P { st with schedLog := st.schedLog ++ [e] }) :
    ∀ (f : Nat) (job : Job) (st st1 : SysState) (r : ERes) (pr : List (EffectId × Bool)),
      P st → step f job st = some (st1, r, pr) → P st1 := by
  intro f
  induction f with
  | zero => intro job st st1 r pr _ hs; simp [step] at hs
  | succ g ih =>
    intro job st st1 r pr hP hs
    cases job with
    | runT e =>
      rcases h1 : alookup st.effects e with _ | er
      · simp [step, h1] at hs
      · by_cases h2 : er.active = true
        · rcases h3 : step g (.progT er.fn Value.undefined) { st with activeEffect := some e } with _ | ⟨st2, r2, p2⟩
          · simp [step, h1, h2, h3] at hs
          · simp [step, h1, h2, h3] at hs
            exact hs.1 ▸ hSlotN st2 (ih _ _ _ _ _ (hSlotA st e er h1 h2 hP) h3)
        · rcases h3 : step g (.progT er.fn Value.undefined) st with _ | ⟨st2, r2, p2⟩
          · simp [step, h1, h2, h3] at hs
          · simp [step, h1, h2, h3] at hs
            exact hs.1 ▸ ih _ _ _ _ _ hP h3
    | progT p reg =>
      cases p with
      | ret e2 =>
        simp [step] at hs
        exact hs.1 ▸ hP
      | pthrow m =>
        simp [step] at hs
        exact hs.1 ▸ hP
      | pread t k nx =>
        simp only [step, getHandler] at hs
        exact ih _ _ _ _ _ (hTrack st t k hP) hs
      | pwrite t k e2 nx =>
        rcases h3 : step g (.setT t k (evalExp e2 reg)) st with _ | ⟨st2, r2, p2⟩
        · simp [step, h3] at hs
        · have hP2 := ih _ _ _ _ _ hP h3
          cases r2 with
          | err m =>
            simp [step, h3] at hs
            exact hs.1 ▸ hP2
          | ok v2 =>
            simp only [step, h3] at hs
            exact ih _ _ _ _ _ hP2 hs
      | pif c thn els =>
        simp only [step] at hs
        exact ih _ _ _ _ _ hP hs
      | prun e2 nx =>
        rcases h3 : step g (.runT e2) st with _ | ⟨st2, r2, p2⟩
        · simp [step, h3] at hs
        · have hP2 := ih _ _ _ _ _ hP h3
          cases r2 with
          | err m =>
            simp [step, h3] at hs
            exact hs.1 ▸ hP2
          | ok v2 =>
            simp only [step, h3] at hs
            exact ih _ _ _ _ _ hP2 hs
      | pstop e2 nx =>
        simp only [step] at hs
        exact ih _ _ _ _ _ (hStop st e2 hP) hs
    | setT t k v =>
      by_cases h1 : storeGet st t k = v
      · simp [step, h1] at hs
        exact hs.1 ▸ hSet st t k v hP
      · simp only [step, if_neg (fun hh => h1 (by exact hh)), ne_eq, h1, not_false_iff, if_true] at hs
        exact ih _ _ _ _ _ (hSet st t k v hP) hs
    | trigT t k =>
      rcases h1 : alookup st.targetMap t with _ | dm
      · simp [step, h1] at hs
        exact hs.1 ▸ hP
      · rcases h2 : alookup dm k with _ | dep
        · simp [step, h1, h2] at hs
          exact hs.1 ▸ hP
        · simp only [step, h1, h2] at hs
          exact ih _ _ _ _ _ hP hs
    | listT l =>
      cases l with
      | nil =>
        simp [step] at hs
        exact hs.1 ▸ hP
      | cons e rest =>
        rcases h1 : alookup st.effects e with _ | er
        · simp [step, h1] at hs
        · by_cases h2 : er.scheduler = true
          · rcases h3 : step g (.listT rest) { st with schedLog := st.schedLog ++ [e] } with _ | ⟨st2, r2, p2⟩
            · simp [step, h1, h2, h3] at hs
            · simp [step, h1, h2, h3] at hs
              exact hs.1 ▸ ih _ _ _ _ _ (hLog st e hP) h3
          · rcases h3 : step g (.runT e) st with _ | ⟨st2, r2, p2⟩
            · simp [step, h1, h2, h3] at hs
            · have hP2 := ih _ _ _ _ _ hP h3
              cases r2 with
              | err m =>
                simp [step, h1, h2, h3] at hs
                exact hs.1 ▸ hP2
              | ok v2 =>
                rcases h4 : step g (.listT rest) st2 with _ | ⟨st3, r3, p3⟩
                · simp [step, h1, h2, h3, h4] at hs
                · simp [step, h1, h2, h3, h4] at hs
                  exact hs.1 ▸ ih _ _ _ _ _ hP2 h4

/-- No interpreter execution changes the identity, user function or
scheduler of any registered effect. -/
theorem step_coreView (f : Nat) (job : Job) (st st1 : SysState) (r : ERes)
    (pr : List (EffectId × Bool)) (hs : step f job st = some (st1, r, pr)) :
    ∀ e, coreView st1 e = coreView st e :=
  step_preserves (fun x => ∀ e, coreView x e = coreView st e)
    (fun x t k hx e => (coreView_track x t k e).trans (hx e))
    (fun x e2 hx e => (coreView_stop x e2 e).trans (hx e))
    (fun x _ _ _ hx e => hx e)
    (fun x _ _ _ _ hx e => hx e)
    (fun x hx e => hx e)
    (fun x _ hx e => hx e)
    f job st st1 r pr (fun _ => rfl) hs

theorem schedOf_coreView (sa sb : SysState) (x : EffectId)
    (h : coreView sa x = coreView sb x) : schedOf sa x = schedOf sb x := by
  unfold coreView at h
  unfold schedOf
  rcases ha : alookup sa.effects x with _ | era <;>
    rcases hb : alookup sb.effects x with _ | erb <;>
      simp [ha, hb] at h ⊢
  exact h.2

/-- The `forEach` over a snapshot list processes exactly the members of
the snapshot, in order, choosing the scheduler branch precisely for the
effects whose record carried a scheduler at entry (no run can change a
scheduler, so entry-time flags decide every branch). -/
theorem listT_procs : ∀ (f : Nat) (l : List EffectId) (st st1 : SysState) (u : Value)
    (procs : List (EffectId × Bool)),
    step f (.listT l) st = some (st1, .ok u, procs) →
    procs = l.map fun x => (x, schedOf st x) := by
  intro f
  induction f with
  | zero => intro l st st1 u procs hs; simp [step] at hs
  | succ g ih =>
    intro l st st1 u procs hs
    cases l with
    | nil =>
      simp [step] at hs
      simp [← hs.2.2]
    | cons e rest =>
      rcases h1 : alookup st.effects e with _ | er
      · simp [step, h1] at hs
      · by_cases h2 : er.scheduler = true
        · rcases h3 : step g (.listT rest) { st with schedLog := st.schedLog ++ [e] } with _ | ⟨st2, r2, p2⟩
          · simp [step, h1, h2, h3] at hs
          · simp [step, h1, h2, h3] at hs
            obtain ⟨hst, hr, hp⟩ := hs
            have hp2 := ih rest { st with schedLog := st.schedLog ++ [e] } st2 u p2 (hr ▸ h3)
            rw [← hp, hp2]
            have hsched : schedOf st e = true := by simp [schedOf, h1, h2]
            simp [hsched]
            exact fun a _ => rfl
        · rcases h3 : step g (.runT e) st with _ | ⟨st2, r2, p2⟩
          · simp [step, h1, h2, h3] at hs
          · cases r2 with
            | err m => simp [step, h1, h2, h3] at hs
            | ok v2 =>
              rcases h4 : step g (.listT rest) st2 with _ | ⟨st3, r3, p3⟩
              · simp [step, h1, h2, h3, h4] at hs
              · simp [step, h1, h2, h3, h4] at hs
                obtain ⟨hst, hr, hp⟩ := hs
                have hp3 := ih rest st2 st3 u p3 (hr ▸ h4)
                have hcv := step_coreView g (.runT e) st st2 (.ok v2) p2 h3
                have hsched : schedOf st e = false := by
                  simp [schedOf, h1]
                  simpa using h2
                rw [← hp, hp3]
                simp [hsched]
                exact fun a _ => schedOf_coreView st2 st a (hcv a)

theorem listT_procs_sub : ∀ (f : Nat) (l : List EffectId) (st st1 : SysState) (r : ERes)
    (procs : List (EffectId × Bool)),
    step f (.listT l) st = some (st1, r, procs) →
    ∀ x ∈ procs, x.1 ∈ l := by
  intro f
  induction f with
  | zero => intro l st st1 r procs hs; simp [step] at hs
  | succ g ih =>
    intro l st st1 r procs hs
    cases l with
    | nil =>
      simp [step] at hs
      intro x hx
      rw [hs.2.2] at hx
      simp at hx
    | cons e rest =>
      rcases h1 : alookup st.effects e with _ | er
      · simp [step, h1] at hs
      · by_cases h2 : er.scheduler = true
        · rcases h3 : step g (.listT rest) { st with schedLog := st.schedLog ++ [e] } with _ | ⟨st2, r2, p2⟩
          · simp [step, h1, h2, h3] at hs
          · simp [step, h1, h2, h3] at hs
            obtain ⟨hst, hr, hp⟩ := hs
            intro x hx
            rw [← hp] at hx
            rcases List.mem_cons.mp hx with hx | hx
            · simp [hx]
            · exact List.mem_cons_of_mem e (ih _ _ _ _ _ h3 x hx)
        · rcases h3 : step g (.runT e) st with _ | ⟨st2, r2, p2⟩
          · simp [step, h1, h2, h3] at hs
          · cases r2 with
            | err m =>
              simp [step, h1, h2, h3] at hs
              obtain ⟨hst, hr, hp⟩ := hs
              intro x hx
              rw [← hp] at hx
              simp at hx
              simp [hx]
            | ok v2 =>
              rcases h4 : step g (.listT rest) st2 with _ | ⟨st3, r3, p3⟩
              · simp [step, h1, h2, h3, h4] at hs
              · simp [step, h1, h2, h3, h4] at hs
                obtain ⟨hst, hr, hp⟩ := hs
                intro x hx
                rw [← hp] at hx
                rcases List.mem_cons.mp hx with hx | hx
                · simp [hx]
                · exact List.mem_cons_of_mem e (ih _ _ _ _ _ h4 x hx)

/-- The function `trigger(t, k)` processes exactly the dependency set of `(t, k)` as it
stood when `trigger` was entered — the snapshot copy — pairing each
subscriber with whether its scheduler was invoked instead of `run`. -/
theorem trig_procs (f : Nat) (t : TargetId) (k : Key) (st st1 : SysState)
    (u : Value) (procs : List (EffectId × Bool))
    (hs : step f (.trigT t k) st = some (st1, .ok u, procs)) :
    procs = (depOf st t k).map fun x => (x, schedOf st x) := by
  match f with
  | 0 => simp [step] at hs
  | g + 1 =>
    rcases h1 : alookup st.targetMap t with _ | dm
    · simp [step, h1] at hs
      simp [depOf, alookup, h1, hs.2.2]
    · rcases h2 : alookup dm k with _ | dep
      · simp [step, h1, h2] at hs
        simp [depOf, alookup, h1, h2, hs.2.2]
      · simp only [step, h1, h2] at hs
        have hchar := listT_procs g dep st st1 u procs hs
        rw [hchar]
        simp [depOf, h1, h2]

/-- Any subscriber directly processed by `trigger(t, k)` is a member of
the dependency set of `(t, k)` at entry. -/
theorem trig_procs_sub (f : Nat) (t : TargetId) (k : Key) (st st1 : SysState)
    (r : ERes) (procs : List (EffectId × Bool))
    (hs : step f (.trigT t k) st = some (st1, r, procs)) :
    ∀ x ∈ procs, x.1 ∈ depOf st t k := by
  match f with
  | 0 => simp [step] at hs
  | g + 1 =>
    rcases h1 : alookup st.targetMap t with _ | dm
    · simp [step, h1] at hs
      intro x hx
      rw [hs.2.2] at hx
      simp at hx
    · rcases h2 : alookup dm k with _ | dep
      · simp [step, h1, h2] at hs
        intro x hx
        rw [hs.2.2] at hx
        simp at hx
      · simp only [step, h1, h2] at hs
        intro x hx
        have := listT_procs_sub g dep st st1 r procs hs x hx
        simpa [depOf, h1, h2] using this

/-- Holds (`true`) when the program never calls `stop`. -/
def noStop : Prog → Bool
  | .ret _ => true
  | .pthrow _ => true
  | .pread _ _ nx => noStop nx
  | .pwrite _ _ _ nx => noStop nx
  | .pif _ thn els => noStop thn && noStop els
  | .prun _ nx => noStop nx
  | .pstop _ _ => false

/-- Every registered effect function is `stop`-free. -/
def regNoStop (st : SysState) : Prop := ∀ p ∈ st.effects, noStop p.2.fn = true

/-- Holds (`true`) when the job does not carry a program that calls `stop`. -/
def jobNoStop : Job → Bool
  | .progT p _ => noStop p
  | _ => true

theorem depOf_track_mono (st : SysState) (t2 : TargetId) (k2 : Key)
    (t : TargetId) (k : Key) (e : EffectId) (h : e ∈ depOf st t k) :
    e ∈ depOf (track st t2 k2) t k := by
  unfold track
  rcases st.activeEffect with _ | ae
  · exact h
  · dsimp only
    split
    · exact h
    · by_cases ht : t2 = t
      · subst ht
        by_cases hk : k2 = k
        · subst hk
          simp only [depOf, alookup_aset_self, Option.getD_some]
          exact List.mem_append_left _ h
        · simp only [depOf, alookup_aset_self, Option.getD_some]
          rw [alookup_aset_ne _ _ _ _ hk]
          exact h
      · simp only [depOf, alookup_aset_ne _ _ _ _ ht]
        exact h

theorem regNoStop_updEff (st : SysState) (e : EffectId) (g : EffectRec → EffectRec)
    (hg : ∀ r, (g r).fn = r.fn) (h : regNoStop st) :
    ∀ p ∈ updEff st.effects e g, noStop p.2.fn = true := by
  intro p hp
  rcases List.mem_map.mp hp with ⟨q, hq, hpq⟩
  by_cases h2 : q.1 = e
  · rw [← hpq]
    simp only [h2, if_pos]
    simp [hg, h q hq]
  · rw [← hpq]
    simp only [h2, if_neg, if_false]
    exact h q hq

theorem regNoStop_track (st : SysState) (t : TargetId) (k : Key)
    (h : regNoStop st) : regNoStop (track st t k) := by
  unfold track
  rcases st.activeEffect with _ | ae
  · exact h
  · dsimp only
    split
    · exact h
    · exact regNoStop_updEff st ae
        (fun r => { r with deps := r.deps ++ [(t, k)] }) (fun r => rfl) h

theorem step_mono :
    ∀ (f : Nat) (job : Job) (st st1 : SysState) (r : ERes) (pr : List (EffectId × Bool)),
      regNoStop st → jobNoStop job = true → step f job st = some (st1, r, pr) →
      (∀ t k e, e ∈ depOf st t k → e ∈ depOf st1 t k) ∧ regNoStop st1 := by
  intro f
  induction f with
  | zero => intro job st st1 r pr _ _ hs; simp [step] at hs
  | succ g ih =>
    intro job st st1 r pr hns hjob hs
    cases job with
    | runT e =>
      rcases h1 : alookup st.effects e with _ | er
      · simp [step, h1] at hs
      · have hfn : noStop er.fn = true := hns (e, er) (alookup_mem _ _ _ h1)
        by_cases h2 : er.active = true
        · rcases h3 : step g (.progT er.fn Value.undefined) { st with activeEffect := some e } with _ | ⟨st2, r2, p2⟩
          · simp [step, h1, h2, h3] at hs
          · simp [step, h1, h2, h3] at hs
            have hrec := ih (.progT er.fn Value.undefined) { st with activeEffect := some e } _ _ _ hns hfn h3
            exact hs.1 ▸ hrec
        · rcases h3 : step g (.progT er.fn Value.undefined) st with _ | ⟨st2, r2, p2⟩
          · simp [step, h1, h2, h3] at hs
          · simp [step, h1, h2, h3] at hs
            have hrec := ih (.progT er.fn Value.undefined) _ _ _ _ hns hfn h3
            exact hs.1 ▸ hrec
    | progT p reg =>
      cases p with
      | ret e2 =>
        simp [step] at hs
        exact hs.1 ▸ ⟨fun t k e h => h, hns⟩
      | pthrow m =>
        simp [step] at hs
        exact hs.1 ▸ ⟨fun t k e h => h, hns⟩
      | pread t k nx =>
        simp only [step, getHandler] at hs
        have hnx : noStop nx = true := by simpa [jobNoStop, noStop] using hjob
        have hrec := ih (.progT nx (storeGet st t k)) _ _ _ _ (regNoStop_track st t k hns) hnx hs
        exact ⟨fun t2 k2 e h => hrec.1 t2 k2 e (depOf_track_mono st t k t2 k2 e h), hrec.2⟩
      | pwrite t k e2 nx =>
        have hnx : noStop nx = true := by simpa [jobNoStop, noStop] using hjob
        rcases h3 : step g (.setT t k (evalExp e2 reg)) st with _ | ⟨st2, r2, p2⟩
        · simp [step, h3] at hs
        · have hrec := ih (.setT t k (evalExp e2 reg)) _ _ _ _ hns (by rfl) h3
          cases r2 with
          | err m =>
            simp [step, h3] at hs
            exact hs.1 ▸ hrec
          | ok v2 =>
            simp only [step, h3] at hs
            have hrec2 := ih (.progT nx reg) _ _ _ _ hrec.2 hnx hs
            exact ⟨fun t2 k2 e h => hrec2.1 t2 k2 e (hrec.1 t2 k2 e h), hrec2.2⟩
      | pif c thn els =>
        simp only [step] at hs
        have hc : noStop thn = true ∧ noStop els = true := by
          have := hjob
          simp [jobNoStop, noStop] at this
          exact this
        have hbr : noStop (if reg = c then thn else els) = true := by
          split
          · exact hc.1
          · exact hc.2
        exact ih (.progT (if reg = c then thn else els) reg) _ _ _ _ hns hbr hs
      | prun e2 nx =>
        have hnx : noStop nx = true := by simpa [jobNoStop, noStop] using hjob
        rcases h3 : step g (.runT e2) st with _ | ⟨st2, r2, p2⟩
        · simp [step, h3] at hs
        · have hrec := ih (.runT e2) _ _ _ _ hns (by rfl) h3
          cases r2 with
          | err m =>
            simp [step, h3] at hs
            exact hs.1 ▸ hrec
          | ok v2 =>
            simp only [step, h3] at hs
            have hrec2 := ih (.progT nx reg) _ _ _ _ hrec.2 hnx hs
            exact ⟨fun t2 k2 e h => hrec2.1 t2 k2 e (hrec.1 t2 k2 e h), hrec2.2⟩
      | pstop e2 nx =>
        simp [jobNoStop, noStop] at hjob
    | setT t k v =>
      by_cases h1 : storeGet st t k = v
      · simp [step, h1] at hs
        exact hs.1 ▸ ⟨fun t2 k2 e h => h, hns⟩
      · simp only [step, if_neg (fun hh => h1 (by exact hh)), ne_eq, h1, not_false_iff, if_true] at hs
        exact ih (.trigT t k) (storeSet st t k v) _ _ _ hns (by rfl) hs
    | trigT t k =>
      rcases h1 : alookup st.targetMap t with _ | dm
      · simp [step, h1] at hs
        exact hs.1 ▸ ⟨fun t2 k2 e h => h, hns⟩
      · rcases h2 : alookup dm k with _ | dep
        · simp [step, h1, h2] at hs
          exact hs.1 ▸ ⟨fun t2 k2 e h => h, hns⟩
        · simp only [step, h1, h2] at hs
          exact ih (.listT dep) st _ _ _ hns (by rfl) hs
    | listT l =>
      cases l with
      | nil =>
        simp [step] at hs
        exact hs.1 ▸ ⟨fun t2 k2 e h => h, hns⟩
      | cons e rest =>
        rcases h1 : alookup st.effects e with _ | er
        · simp [step, h1] at hs
        · by_cases h2 : er.scheduler = true
          · rcases h3 : step g (.listT rest) { st with schedLog := st.schedLog ++ [e] } with _ | ⟨st2, r2, p2⟩
            · simp [step, h1, h2, h3] at hs
            · simp [step, h1, h2, h3] at hs
              have hrec := ih (.listT rest) { st with schedLog := st.schedLog ++ [e] } _ _ _ hns (by rfl) h3
              exact hs.1 ▸ hrec
          · rcases h3 : step g (.runT e) st with _ | ⟨st2, r2, p2⟩
            · simp [step, h1, h2, h3] at hs
            · have hrec := ih (.runT e) _ _ _ _ hns (by rfl) h3
              cases r2 with
              | err m =>
                simp [step, h1, h2, h3] at hs
                exact hs.1 ▸ hrec
              | ok v2 =>
                rcases h4 : step g (.listT rest) st2 with _ | ⟨st3, r3, p3⟩
                · simp [step, h1, h2, h3, h4] at hs
                · simp [step, h1, h2, h3, h4] at hs
                  have hrec2 := ih (.listT rest) _ _ _ _ hrec.2 (by rfl) h4
                  exact hs.1 ▸ ⟨fun t2 k2 e2 h => hrec2.1 t2 k2 e2 (hrec.1 t2 k2 e2 h), hrec2.2⟩

/-- The dependency set stored in a raw graph at `(t, k)`. -/
def gdep (tm : List (TargetId × List (Key × List EffectId))) (t : TargetId) (k : Key) :
    List EffectId :=
  (alookup ((alookup tm t).getD []) k).getD []

theorem filter_ne_twice (l : List EffectId) (e : EffectId) :
    (l.filter fun x => x != e).filter (fun x => x != e) = l.filter fun x => x != e := by
  rw [List.filter_filter]
  apply List.filter_congr
  intro a _
  simp [Bool.and_self]

theorem gdep_rmFrom (e : EffectId) (tm : List (TargetId × List (Key × List EffectId)))
    (d : TargetId × Key) (t : TargetId) (k : Key) :
    gdep (rmFrom e tm d) t k =
      if d = (t, k) then (gdep tm t k).filter (fun x => x != e) else gdep tm t k := by
  unfold rmFrom gdep
  by_cases h1 : d.1 = t
  · subst h1
    simp only [alookup_aset_self, Option.getD_some]
    by_cases h2 : d.2 = k
    · subst h2
      simp only [alookup_aset_self, Option.getD_some]
      simp
    · rw [alookup_aset_ne _ _ _ _ h2]
      have hne : ¬ d = (d.1, k) := fun hh => h2 (by rw [hh])
      simp [hne]
  · rw [alookup_aset_ne _ _ _ _ h1]
    have hne : ¬ d = (t, k) := fun hh => h1 (by rw [hh])
    simp [hne]

theorem gdep_foldl_rmFrom (e : EffectId) (ds : List (TargetId × Key)) :
    ∀ (tm : List (TargetId × List (Key × List EffectId))) (t : TargetId) (k : Key),
    gdep (ds.foldl (rmFrom e) tm) t k =
      if (t, k) ∈ ds then (gdep tm t k).filter (fun x => x != e) else gdep tm t k := by
  induction ds with
  | nil => intro tm t k; simp
  | cons d ds ih =>
    intro tm t k
    rw [List.foldl_cons, ih (rmFrom e tm d) t k, gdep_rmFrom]
    have h2s : ((t, k) = d) ↔ (d = (t, k)) := eq_comm
    by_cases h1 : (t, k) ∈ ds <;> by_cases h2 : d = (t, k) <;>
      simp [h1, h2, h2s, filter_ne_twice]

theorem notMem_filter_ne (l : List EffectId) (e : EffectId) :
    e ∉ l.filter fun x => x != e := by
  simp [List.mem_filter]

/-- Effect `e`'s `deps` array records every dependency set that contains
`e` — the invariant `track` maintains by pushing the set whenever it adds
the effect. -/
def depsRecorded (e : EffectId) (st : SysState) : Prop :=
  ∀ td ∈ st.targetMap, ∀ kd ∈ td.2, e ∈ kd.2 →
    (td.1, kd.1) ∈ ((alookup st.effects e).map fun er => er.deps).getD []

theorem depsRecorded_mem (e : EffectId) (st : SysState) (er : EffectRec)
    (h1 : alookup st.effects e = some er) (hwf : depsRecorded e st)
    (t : TargetId) (k : Key) (h : e ∈ depOf st t k) : (t, k) ∈ er.deps := by
  unfold depOf at h
  rcases ht : alookup st.targetMap t with _ | dm
  · rw [ht] at h; simp [alookup] at h
  · rw [ht] at h
    simp only [Option.getD_some] at h
    rcases hk : alookup dm k with _ | dep
    · rw [hk] at h; simp at h
    · rw [hk] at h
      simp at h
      have := hwf (t, dm) (alookup_mem _ _ _ ht) (k, dep) (alookup_mem _ _ _ hk) h
      rw [h1] at this
      simpa using this

theorem stop_lookup (st : SysState) (e : EffectId) (er : EffectRec)
    (h1 : alookup st.effects e = some er) (h2 : er.active = true) :
    alookup (stop st e).effects e =
      some { fn := er.fn, scheduler := er.scheduler, active := false, deps := [] } ∧
    (stop st e).targetMap = er.deps.foldl (rmFrom e) st.targetMap ∧
    (stop st e).activeEffect = st.activeEffect := by
  unfold stop cleanupEffect
  rw [h1]
  simp only [h2, if_true]
  rw [show alookup (updEff st.effects e fun r => { r with active := false }) e =
      some { er with active := false } by rw [alookup_updEff]; simp [h1]]
  by_cases hd : er.deps = []
  · simp [hd, alookup_updEff, h1]
  · simp [hd, alookup_updEff, h1]

/-- After `stop()`, the stopped effect is a member of no dependency set,
provided its `deps` array recorded every set that contained it. -/
theorem stop_removes (st : SysState) (e : EffectId) (er : EffectRec)
    (h1 : alookup st.effects e = some er) (h2 : er.active = true)
    (hwf : depsRecorded e st) : ∀ t k, e ∉ depOf (stop st e) t k := by
  intro t k
  have hmap := (stop_lookup st e er h1 h2).2.1
  show e ∉ gdep (stop st e).targetMap t k
  rw [hmap, gdep_foldl_rmFrom]
  by_cases hin : (t, k) ∈ er.deps
  · simp only [hin, if_pos]
    exact notMem_filter_ne _ e
  · simp only [hin, if_neg, if_false]
    intro hmem
    exact hin (depsRecorded_mem e st er h1 hwf t k hmem)

/-- The stopped effect is inactive, absent from every dependency set, and
not the active computation. -/
def Quiescent (e : EffectId) (st : SysState) : Prop :=
  (∃ er, alookup st.effects e = some er ∧ er.active = false) ∧
  (∀ t k, e ∉ depOf st t k) ∧
  st.activeEffect ≠ some e

theorem quiescent_track (e : EffectId) (st : SysState) (t : TargetId) (k : Key)
    (h : Quiescent e st) : Quiescent e (track st t k) := by
  obtain ⟨⟨er, her, hact⟩, hdep, hslot⟩ := h
  unfold track
  rcases hA : st.activeEffect with _ | ae
  · exact ⟨⟨er, her, hact⟩, hdep, hslot⟩
  · have hae : e ≠ ae := by
      intro hh
      exact hslot (by rw [hA, hh])
    have hslot2 : (some ae : Option EffectId) ≠ some e := by
      intro hh
      exact hslot (by rw [hA]; exact hh)
    dsimp only
    split
    · exact ⟨⟨er, her, hact⟩, hdep, hslot⟩
    · refine ⟨⟨er, ?_, hact⟩, ?_, hslot2⟩
      · show alookup (updEff st.effects ae fun r => { r with deps := r.deps ++ [(t, k)] }) e =
          some er
        rw [alookup_updEff, if_neg hae]
        exact her
      · intro t2 k2
        show e ∉ gdep (aset st.targetMap t
          (aset ((alookup st.targetMap t).getD []) k
            ((alookup ((alookup st.targetMap t).getD []) k).getD [] ++ [ae]))) t2 k2
        unfold gdep
        by_cases ht : t = t2
        · subst ht
          simp only [alookup_aset_self, Option.getD_some]
          by_cases hk : k = k2
          · subst hk
            rw [alookup_aset_self]
            simp only [Option.getD_some, List.mem_append]
            rintro (hmem | hmem)
            · exact hdep t k hmem
            · simp at hmem
              exact hae hmem
          · rw [alookup_aset_ne _ _ _ _ hk]
            exact hdep t k2
        · rw [alookup_aset_ne _ _ _ _ ht]
          exact hdep t2 k2

theorem quiescent_stop (e e2 : EffectId) (st : SysState)
    (h : Quiescent e st) : Quiescent e (stop st e2) := by
  obtain ⟨⟨er, her, hact⟩, hdep, hslot⟩ := h
  by_cases he : e2 = e
  · subst he
    unfold stop
    rw [her]
    dsimp only
    simp only [hact, Bool.false_eq_true, if_false]
    exact ⟨⟨er, her, hact⟩, hdep, hslot⟩
  · unfold stop
    rcases h2 : alookup st.effects e2 with _ | er2
    · exact ⟨⟨er, her, hact⟩, hdep, hslot⟩
    · dsimp only
      have hlook : alookup (updEff st.effects e2 fun r => { r with active := false }) e =
          some er := by
        rw [alookup_updEff, if_neg (fun hh => he hh.symm)]
        exact her
      by_cases ha2 : er2.active = true
      · simp only [ha2, if_true]
        unfold cleanupEffect
        rw [show alookup (updEff st.effects e2 fun r => { r with active := false }) e2 =
            some { er2 with active := false } by rw [alookup_updEff]; simp [h2]]
        dsimp only
        by_cases hd : er2.deps = []
        · simp only [hd, if_pos]
          exact ⟨⟨er, hlook, hact⟩, hdep, hslot⟩
        · rw [if_neg (by simpa using hd)]
          refine ⟨⟨er, ?_, hact⟩, ?_, hslot⟩
          · show alookup (updEff (updEff st.effects e2 fun r => { r with active := false })
              e2 fun r => { r with deps := [] }) e = some er
            rw [alookup_updEff, if_neg (fun hh => he hh.symm)]
            exact hlook
          · intro t k
            show e ∉ gdep (er2.deps.foldl (rmFrom e2) st.targetMap) t k
            rw [gdep_foldl_rmFrom]
            split
            · intro hmem
              exact hdep t k (List.mem_of_mem_filter hmem)
            · exact hdep t k
      · simp only [ha2, if_false]
        exact ⟨⟨er, her, hact⟩, hdep, hslot⟩

theorem quiescent_step (e : EffectId) (f : Nat) (job : Job) (st st1 : SysState)
    (r : ERes) (pr : List (EffectId × Bool))
    (h : Quiescent e st) (hs : step f job st = some (st1, r, pr)) : Quiescent e st1 := by
  refine step_preserves (Quiescent e) ?_ ?_ ?_ ?_ ?_ ?_ f job st st1 r pr h hs
  · exact fun x t k hx => quiescent_track e x t k hx
  · exact fun x e2 hx => quiescent_stop e e2 x hx
  · exact fun x t k v hx => ⟨hx.1, hx.2.1, hx.2.2⟩
  · intro x e2 er2 hl ha hx
    obtain ⟨⟨er, her, hact⟩, hdep, hslot⟩ := hx
    refine ⟨⟨er, her, hact⟩, hdep, ?_⟩
    intro hh
    have hh2 : (some e2 : Option EffectId) = some e := hh
    have he2 : e2 = e := by injection hh2
    subst he2
    rw [her] at hl
    injection hl with hl2
    rw [← hl2, hact] at ha
    exact Bool.false_ne_true ha
  · exact fun x hx => ⟨hx.1, hx.2.1, by simp⟩
  · exact fun x e2 hx => ⟨hx.1, hx.2.1, hx.2.2⟩

/-- Reachability by any number of interpreter executions. -/
inductive Reaches : SysState → SysState → Prop where
  | refl (st : SysState) : Reaches st st
  | tail (st st1 st2 : SysState) (f : Nat) (job : Job) (r : ERes)
      (pr : List (EffectId × Bool)) (h1 : Reaches st st1)
      (h2 : step f job st1 = some (st2, r, pr)) : Reaches st st2

theorem quiescent_reaches (e : EffectId) (st st1 : SysState)
    (h : Quiescent e st) (hr : Reaches st st1) : Quiescent e st1 := by
  induction hr with
  | refl => exact h
  | tail sa sb f job r pr h1 h2 ih => exact quiescent_step e f job sa sb r pr ih h2

/-- Every subscriber directly processed by the `set` handler's trigger is
a member of the dependency set of the written key. -/
theorem setT_procs_sub (f : Nat) (t : TargetId) (k : Key) (v : Value)
    (st st1 : SysState) (r : ERes) (procs : List (EffectId × Bool))
    (hs : step f (.setT t k v) st = some (st1, r, procs)) :
    ∀ x ∈ procs, x.1 ∈ depOf st t k := by
  match f with
  | 0 => simp [step] at hs
  | g + 1 =>
    by_cases h1 : storeGet st t k = v
    · simp [step, h1] at hs
      intro x hx
      rw [hs.2.2] at hx
      simp at hx
    · simp only [step, if_neg (fun hh => h1 (by exact hh)), ne_eq, h1, not_false_iff,
        if_true] at hs
      exact trig_procs_sub g t k (storeSet st t k v) st1 r procs hs

/-! ## Concrete scenarios used by the claims -/

/-- An effect function with dynamic dependencies: read `flag`, then read
`a` when `flag` is `0` and `b` otherwise (`() => s.flag === 0 ? s.a : s.b`). -/
def fnC1 : Prog :=
  .pread 0 "flag" (.pif (.vint 0) (.pread 0 "a" (.ret .regE)) (.pread 0 "b" (.ret .regE)))

/-- Initial state for the dynamic-dependency scenario: one raw object
`{flag: 0, a: 10, b: 20}`, nothing tracked yet. -/
def stC1 : SysState :=
  { store := [(0, [("flag", .vint 0), ("a", .vint 10), ("b", .vint 20)])],
    targetMap := [], effects := [], activeEffect := none, schedLog := [] }

/-- The state after `effect(fnC1)` registers effect `0` and runs it once:
the first run read `flag` and `a`, so effect `0` subscribed to both. -/
def stC1r : SysState :=
  { store := [(0, [("flag", .vint 0), ("a", .vint 10), ("b", .vint 20)])],
    targetMap := [(0, [("flag", [0]), ("a", [0])])],
    effects := [(0, { fn := fnC1, scheduler := false, active := true,
                      deps := [(0, "flag"), (0, "a")] })],
    activeEffect := none, schedLog := [] }

/-- The state after `wrap(T).flag = 1` re-triggers effect `0`: the second
run read `flag` and `b` only, yet the subscription to `a` from the first
run is still present, and `deps` lists all three keys. -/
def stC1r2 : SysState :=
  { store := [(0, [("flag", .vint 1), ("a", .vint 10), ("b", .vint 20)])],
    targetMap := [(0, [("flag", [0]), ("a", [0]), ("b", [0])])],
    effects := [(0, { fn := fnC1, scheduler := false, active := true,
                      deps := [(0, "flag"), (0, "a"), (0, "b")] })],
    activeEffect := none, schedLog := [] }

/-- A self-triggering effect function: read `count`; stay quiet while it
is `0`, otherwise write `count + 1` back
(`() => { if (s.count !== 0) s.count = s.count + 1 }`). -/
def fnC3 : Prog :=
  .pread 0 "count"
    (.pif (.vint 0) (.ret .regE) (.pwrite 0 "count" (.addE 1) (.ret (.constE .undefined))))

/-- Initial state for the re-entrancy scenario: one raw object `{count: 0}`. -/
def stC3 : SysState :=
  { store := [(0, [("count", .vint 0)])],
    targetMap := [], effects := [], activeEffect := none, schedLog := [] }

/-- The state after `effect(fnC3)` registers effect `0` and its first run
(quiet, since `count = 0`) subscribes it to `count`. -/
def stC3r : SysState :=
  { store := [(0, [("count", .vint 0)])],
    targetMap := [(0, [("count", [0])])],
    effects := [(0, { fn := fnC3, scheduler := false, active := true, deps := [(0, "count")] })],
    activeEffect := none, schedLog := [] }

/-- The shape of the engine state at every entry to `run()` of the
self-triggering effect: `count` holds `n` and effect `0` subscribes to it;
`a` is whatever the active-effect slot holds at that entry. -/
def cyc (n : Int) (a : Option EffectId) : SysState :=
  { store := [(0, [("count", .vint n)])],
    targetMap := [(0, [("count", [0])])],
    effects := [(0, { fn := fnC3, scheduler := false, active := true, deps := [(0, "count")] })],
    activeEffect := a, schedLog := [] }

/-- Running the self-triggering effect from any cycle state exhausts every
fuel: each run writes `count + 1`, which differs from `count`, re-triggers
the sole subscriber, and recurses with no guard against re-entry. -/
theorem cycNone (f : Nat) : ∀ (n : Int) (a : Option EffectId), 1 ≤ n →
    step f (.runT 0) (cyc n a) = none := by
  induction f using Nat.strong_induction_on with
  | _ f IH =>
    intro n a hn
    have hn0 : ¬ (n = 0) := by omega
    have hn1 : ¬ (n = n + 1) := by omega
    rcases Nat.lt_or_ge f 7 with hf | hf
    · interval_cases f <;>
        simp [step, cyc, fnC3, getHandler, track, alookup, storeGet, storeSet, aset,
          evalExp, updEff, hn0, hn1]
    · obtain ⟨g, rfl⟩ : ∃ g, f = g + 7 := ⟨f - 7, by omega⟩
      have hg := IH g (by omega) (n + 1) (some 0) (by omega)
      set_option maxHeartbeats 1600000 in
      simp [step, cyc, fnC3, getHandler, track, alookup, storeGet, storeSet, aset,
        evalExp, updEff, hn0, hn1] at hg ⊢
      simp [hg]

/-- A state in which effect `7` is the active computation — exactly the
situation during an enclosing effect's `run` — and effect `1` (a trivial
active effect) is about to be run nested inside it. -/
def stC2 : SysState :=
  { store := [], targetMap := [],
    effects := [(1, { fn := .ret (.constE .undefined), scheduler := false, active := true,
                      deps := [] })],
    activeEffect := some 7, schedLog := [] }

/-- C2 (counterexample): `run()` does not restore the saved previous value
of the active-computation slot.  Starting with the slot holding effect `7`
(the enclosing computation), running effect `1` ends with the slot
`undefined`, not `some 7`: the `finally` block writes `activeEffect =
undefined` unconditionally instead of restoring the previous value. -/
theorem C2_counterexample :
    (step 2 (.runT 1) stC2).map (fun x => x.1.activeEffect) = some none ∧
    some (none : Option EffectId) ≠ some (some 7) := by
  constructor
  · rfl
  · simp

/-- C2 (amended): for an active effect, `run()` executes the user function
with the slot set to the running effect and, on both the normal and the
throwing exit path, sets the slot to `undefined` (never back to the value
it held at entry). -/
theorem C2_run_clears_slot (f : Nat) (e : EffectId) (st : SysState) (er : EffectRec)
    (h1 : alookup st.effects e = some er) (h2 : er.active = true) :
    step (f + 1) (.runT e) st =
      (step f (.progT er.fn Value.undefined) { st with activeEffect := some e }).map
        fun x => ({ x.1 with activeEffect := none }, x.2.1, []) := by
  rcases h3 : step f (.progT er.fn Value.undefined) { st with activeEffect := some e } with
    _ | ⟨st2, r2, p2⟩ <;> simp [step, h1, h2, h3]

theorem C2_run_clears_slot_witness :
    alookup stC2.effects 1 = some ⟨.ret (.constE .undefined), false, true, []⟩ ∧
    step 2 (.runT 1) stC2 =
      (step 1 (.progT (Prog.ret (.constE .undefined)) Value.undefined)
        { stC2 with activeEffect := some 1 }).map
        fun x => ({ x.1 with activeEffect := none }, x.2.1, []) := by
  refine ⟨by rfl, ?_⟩
  exact C2_run_clears_slot 1 1 stC2 ⟨.ret (.constE .undefined), false, true, []⟩
    (by rfl) (by rfl)

/-- C10: after any `run()` of an active effect completes — normally or
with a thrown exception, nested or not — the active-computation slot is
`undefined` (cleared to "none", not restored to any enclosing effect). -/
theorem C10_run_clears_active_slot (f : Nat) (e : EffectId) (st st1 : SysState)
    (er : EffectRec) (r : ERes) (procs : List (EffectId × Bool))
    (h1 : alookup st.effects e = some er) (h2 : er.active = true)
    (hs : step f (.runT e) st = some (st1, r, procs)) : st1.activeEffect = none := by
  match f with
  | 0 => exact absurd hs (by simp [step])
  | g + 1 =>
    simp [step, h1, h2] at hs
    rcases h3 : step g (.progT er.fn Value.undefined) { st with activeEffect := some e } with
      _ | ⟨st2, r2, p2⟩ <;> simp [h3] at hs
    simp [← hs.1]

theorem C10_run_clears_active_slot_witness :
    alookup stC2.effects 1 = some ⟨.ret (.constE .undefined), false, true, []⟩ ∧
    step 2 (.runT 1) stC2 = some ({ stC2 with activeEffect := none }, .ok Value.undefined, []) ∧
    ({ stC2 with activeEffect := none } : SysState).activeEffect = none := by
  refine ⟨by rfl, by rfl, ?_⟩
  exact C10_run_clears_active_slot 2 1 stC2 { stC2 with activeEffect := none }
    ⟨.ret (.constE .undefined), false, true, []⟩
    (.ok Value.undefined) [] (by rfl) (by rfl) (by rfl)

/-- C8: when the user function throws during an active `run()`, the same
exception propagates to the caller of `run()`, and the final state is
exactly the state the function left behind with the active-computation
slot cleared — the identical cleanup performed on a normal exit, so the
dependency graph is whatever tracking had built up to the throw and
subsequent reads and writes behave as after a normal exit. -/
theorem C8_throw_propagates (f : Nat) (e : EffectId) (st stI : SysState) (er : EffectRec)
    (m : String) (pI : List (EffectId × Bool))
    (h1 : alookup st.effects e = some er) (h2 : er.active = true)
    (hs : step f (.progT er.fn Value.undefined) { st with activeEffect := some e } =
      some (stI, .err m, pI)) :
    step (f + 1) (.runT e) st = some ({ stI with activeEffect := none }, .err m, []) := by
  simp [step, h1, h2, hs]

/-- A state with a single active effect `1` whose function reads `"x"` of
target `0` and then throws. -/
def stC8 : SysState :=
  { store := [(0, [("x", .vint 5)])], targetMap := [],
    effects := [(1, { fn := .pread 0 "x" (.pthrow "boom"), scheduler := false,
                      active := true, deps := [] })],
    activeEffect := none, schedLog := [] }

theorem C8_throw_propagates_witness :
    alookup stC8.effects 1 = some ⟨.pread 0 "x" (.pthrow "boom"), false, true, []⟩ ∧
    step 3 (.runT 1) stC8 =
      some (⟨[(0, [("x", .vint 5)])], [(0, [("x", [1])])],
             [(1, ⟨.pread 0 "x" (.pthrow "boom"), false, true, [(0, "x")]⟩)],
             none, []⟩, .err "boom", []) := by
  refine ⟨by rfl, ?_⟩
  exact C8_throw_propagates 2 1 stC8
    ⟨[(0, [("x", .vint 5)])], [(0, [("x", [1])])],
     [(1, ⟨.pread 0 "x" (.pthrow "boom"), false, true, [(0, "x")]⟩)],
     some 1, []⟩
    ⟨.pread 0 "x" (.pthrow "boom"), false, true, []⟩
    "boom" [] (by rfl) (by rfl) (by rfl)

/-- C3: the code diverges where the claim demands termination.  Register
the self-triggering effect (its registration run, with `count = 0`, stays
quiet and subscribes it to `count`); then the external write
`wrap(T).count = 1` never terminates — for every fuel the interpreter runs
out: every re-run writes `count + 1`, which differs from the value just
read, re-triggers the sole subscriber synchronously, and `trigger` has no
guard against re-entering the currently running effect.  The snapshot copy
of the set cannot stop this recursion. -/
theorem C3_self_trigger_diverges :
    effectReg 20 stC3 0 fnC3 = some (stC3r, .ok (.vint 0), []) ∧
    ∀ f, step f (.setT 0 "count" (.vint 1)) stC3r = none := by
  refine ⟨by rfl, ?_⟩
  intro f
  rcases Nat.lt_or_ge f 3 with hf | hf
  · interval_cases f <;> simp [step, stC3r, fnC3, storeGet, storeSet, alookup, aset]
  · obtain ⟨g, rfl⟩ : ∃ g, f = g + 3 := ⟨f - 3, by omega⟩
    have hg := cycNone g 1 none (by omega)
    simp [step, cyc, stC3r, fnC3, storeGet, storeSet, alookup, aset] at hg ⊢
    simp [hg]

/-- C1 (counterexample): effect `0` reads `flag` and `a` on its first run;
the write `flag = 1` re-runs it and the second run reads `flag` and `b`
only — yet after the second run effect `0` is still a subscriber of
`(0, "a")` (and of all three keys), because `run()` never clears old
dependency sets before re-executing. -/
theorem C1_counterexample :
    effectReg 20 stC1 0 fnC1 = some (stC1r, .ok (.vint 10), []) ∧
    step 30 (.setT 0 "flag" (.vint 1)) stC1r = some (stC1r2, .ok Value.undefined, [(0, false)]) ∧
    (0 : EffectId) ∈ depOf stC1r2 0 "a" := by
  refine ⟨by rfl, by rfl, ?_⟩
  decide

/-- C1 (amended): subscriptions accumulate instead of being rebuilt: as
long as no effect function calls `stop`, a `run()` (including the re-run
performed by a trigger) never removes any membership from any dependency
set, so after a second run the effect is subscribed to the union of the
keys read during all its runs — stale first-run subscriptions remain. -/
theorem C1_deps_accumulate (f : Nat) (e0 : EffectId) (st st1 : SysState) (r : ERes)
    (pr : List (EffectId × Bool)) (hns : regNoStop st)
    (hs : step f (.runT e0) st = some (st1, r, pr)) :
    ∀ t k e, e ∈ depOf st t k → e ∈ depOf st1 t k :=
  (step_mono f (.runT e0) st st1 r pr hns (by rfl) hs).1

theorem C1_deps_accumulate_witness :
    regNoStop stC1r2 ∧
    step 10 (.runT 0) stC1r2 = some (stC1r2, .ok (.vint 20), []) ∧
    ((0 : EffectId) ∈ depOf stC1r2 0 "a" ∧ (0 : EffectId) ∈ depOf stC1r2 0 "a") := by
  refine ⟨?_, by rfl, ?_, ?_⟩
  · intro p hp
    simp [stC1r2] at hp
    simp [hp, fnC1, noStop]
  · decide
  · exact C1_deps_accumulate 10 0 stC1r2 stC1r2 (.ok (.vint 20)) []
      (by intro p hp; simp [stC1r2] at hp; simp [hp, fnC1, noStop]) (by rfl) 0 "a" 0
      (by decide)

/-- C9: `track` (the spec's `record`) returns immediately when there is no
active computation: a read through the proxy `get` handler outside any
effect run leaves the engine state — in particular the dependency graph —
completely unchanged and subscribes nothing. -/
theorem C9_untracked_read_noop (st : SysState) (t : TargetId) (k : Key)
    (h : st.activeEffect = none) :
    track st t k = st ∧ getHandler st t k = (st, storeGet st t k) := by
  constructor
  · unfold track
    rw [h]
  · unfold getHandler track
    rw [h]

theorem C9_untracked_read_noop_witness :
    stC1r.activeEffect = none ∧ track stC1r 0 "b" = stC1r := by
  refine ⟨by rfl, (C9_untracked_read_noop stC1r 0 "b" (by rfl)).1⟩

/-- C4: the `set` handler always performs the underlying write first; when
the new value strictly equals the old one it does nothing else (no
subscriber is touched), and when it differs it hands exactly the
entry-time subscribers of `(t, k)` — and no other effect — to `trigger`,
each re-run synchronously unless it carries a scheduler. -/
theorem C4_set_semantics (f : Nat) (t : TargetId) (k : Key) (v : Value)
    (st st1 : SysState) (r : ERes) (procs : List (EffectId × Bool))
    (hs : step (f + 1) (.setT t k v) st = some (st1, r, procs)) :
    (storeGet st t k = v →
      st1 = storeSet st t k v ∧ r = .ok Value.undefined ∧ procs = []) ∧
    (storeGet st t k ≠ v →
      step f (.trigT t k) (storeSet st t k v) = some (st1, r, procs) ∧
      ∀ u, r = .ok u → procs = (depOf st t k).map fun x => (x, schedOf st x)) := by
  constructor
  · intro h
    simp [step, h] at hs
    exact ⟨hs.1.symm, hs.2.1.symm, hs.2.2⟩
  · intro h
    simp only [step, ne_eq, h, not_false_iff, if_true] at hs
    refine ⟨hs, ?_⟩
    intro u hr
    subst hr
    exact trig_procs f t k (storeSet st t k v) st1 u procs hs

theorem C4_set_semantics_witness :
    (storeGet stC1r 0 "flag" ≠ .vint 1 ∧
      step 29 (.trigT 0 "flag") (storeSet stC1r 0 "flag" (.vint 1)) =
        some (stC1r2, .ok Value.undefined, [(0, false)]) ∧
      [((0 : EffectId), false)] =
        (depOf stC1r 0 "flag").map fun x => (x, schedOf stC1r x)) ∧
    (storeGet stC1r2 0 "flag" = .vint 1 ∧
      step 5 (.setT 0 "flag" (.vint 1)) stC1r2 =
        some (storeSet stC1r2 0 "flag" (.vint 1), .ok Value.undefined, [])) := by
  constructor
  · have h4 := C4_set_semantics 29 0 "flag" (.vint 1) stC1r stC1r2 (.ok Value.undefined)
      [(0, false)] (by rfl)
    have hne : storeGet stC1r 0 "flag" ≠ .vint 1 := by decide
    have h5 := h4.2 hne
    exact ⟨hne, h5.1, h5.2 Value.undefined rfl⟩
  · have h4 := C4_set_semantics 4 0 "flag" (.vint 1) stC1r2
      (storeSet stC1r2 0 "flag" (.vint 1)) (.ok Value.undefined) [] (by rfl)
    have heq : storeGet stC1r2 0 "flag" = .vint 1 := by decide
    have h5 := h4.1 heq
    exact ⟨heq, by rfl⟩

/-- C7: `trigger(t, k)` iterates over the snapshot of the subscriber set
taken at entry: the processed subscribers are exactly the entry-time
members of the dependency set of `(t, k)`, in order, regardless of any
insertion into or removal from the live set performed by the subscribers'
own re-runs; each is handed to its scheduler instead of `run()` exactly
when its record carries one. -/
theorem C7_trigger_snapshot (f : Nat) (t : TargetId) (k : Key) (st st1 : SysState)
    (u : Value) (procs : List (EffectId × Bool))
    (hs : step f (.trigT t k) st = some (st1, .ok u, procs)) :
    procs = (depOf st t k).map fun x => (x, schedOf st x) := by
  exact trig_procs f t k st st1 u procs hs

/-- A state with two subscribers of `(0, "k")`: effect `1` carries a
scheduler, effect `2` does not. -/
def stC7 : SysState :=
  { store := [(0, [("k", .vint 1)])],
    targetMap := [(0, [("k", [1, 2])])],
    effects := [(1, ⟨.ret (.constE .undefined), true, true, [(0, "k")]⟩),
                (2, ⟨.pread 0 "k" (.ret .regE), false, true, [(0, "k")]⟩)],
    activeEffect := none, schedLog := [] }

theorem C7_trigger_snapshot_witness :
    step 10 (.trigT 0 "k") stC7 =
      some ({ stC7 with schedLog := [1] }, .ok Value.undefined, [(1, true), (2, false)]) ∧
    [((1 : EffectId), true), (2, false)] =
      (depOf stC7 0 "k").map fun x => (x, schedOf stC7 x) := by
  refine ⟨by rfl, ?_⟩
  exact C7_trigger_snapshot 10 0 "k" stC7 { stC7 with schedLog := [1] } Value.undefined
    [(1, true), (2, false)] (by rfl)

instance (e : EffectId) (st : SysState) : Decidable (depsRecorded e st) := by
  unfold depsRecorded
  infer_instance

instance (st : RState) : Decidable (RWF st) := by
  unfold RWF
  infer_instance

/-- Calling `stop()` on an effect whose record is already inactive does nothing. -/
theorem stop_inactive (st : SysState) (x : EffectId) (erx : EffectRec)
    (hl : alookup st.effects x = some erx) (ha : erx.active = false) : stop st x = st := by
  unfold stop
  rw [hl]
  dsimp only
  simp [ha]

/-- A user function that stops its own effect mid-run and then reads
again: read `a`, call `stop` on effect `0` (itself), read `a` once more
(`() => { s.a; stop(); s.a }`). -/
def fnC5x : Prog := .pread 0 "a" (.pstop 0 (.pread 0 "a" (.ret .regE)))

/-- Initial state for the self-stop scenario: one raw object `{a: 5}`. -/
def stC5x : SysState :=
  { store := [(0, [("a", .vint 5)])], targetMap := [], effects := [],
    activeEffect := none, schedLog := [] }

/-- The state after `effect(fnC5x)`: the mid-run `stop()` cleared the
dependency sets and deactivated effect `0`, but the read performed
afterwards in the same run re-subscribed it — `track` consults only the
active-computation slot, never the `active` flag. -/
def stC5xr : SysState :=
  { store := [(0, [("a", .vint 5)])],
    targetMap := [(0, [("a", [0])])],
    effects := [(0, ⟨fnC5x, false, false, [(0, "a")]⟩)],
    activeEffect := none, schedLog := [] }

/-- C5 (counterexample): calling `stop()` from inside the effect's own
run does not end its subscriptions.  After registration of an effect that
reads `a`, stops itself, and reads `a` again, the effect is inactive yet
still a member of the dependency set of `(0, "a")`, and the subsequent
external write `a = 1` re-runs it (`run()` on an inactive effect still
executes the user function) — refuting "no subsequent write to any
previously-tracked key ever re-runs it". -/
theorem C5_counterexample :
    effectReg 20 stC5x 0 fnC5x = some (stC5xr, .ok (.vint 5), []) ∧
    alookup stC5xr.effects 0 = some ⟨fnC5x, false, false, [(0, "a")]⟩ ∧
    (0 : EffectId) ∈ depOf stC5xr 0 "a" ∧
    step 20 (.setT 0 "a" (.vint 1)) stC5xr =
      some ({ stC5xr with store := [(0, [("a", .vint 1)])] }, .ok Value.undefined,
        [(0, false)]) := by
  refine ⟨by rfl, by rfl, by decide, by rfl⟩

/-- C5 (amended): after `stop()` on an active effect that is not the
currently running computation (an external stop), with its `deps` array
recording its memberships (the invariant `track` maintains), the effect is
removed from every dependency set; a second `stop()` is a no-op; its
registry record is inactive with `deps` cleared; calling the runner still
executes the user function without setting the active-computation slot;
and in every state reachable from the stopped state the effect belongs to
no dependency set, so no write ever re-runs or schedules it.  (For a stop
issued from inside the effect's own run, the guarantee fails: see the
counterexample.) -/
theorem C5_stop_semantics (st : SysState) (e : EffectId) (er : EffectRec)
    (h1 : alookup st.effects e = some er) (h2 : er.active = true)
    (h3 : depsRecorded e st) (h4 : st.activeEffect ≠ some e) :
    (∀ t k, e ∉ depOf (stop st e) t k) ∧
    stop (stop st e) e = stop st e ∧
    alookup (stop st e).effects e = some ⟨er.fn, er.scheduler, false, []⟩ ∧
    (∀ f, step (f + 1) (.runT e) (stop st e) =
      (step f (.progT er.fn Value.undefined) (stop st e)).map fun x => (x.1, x.2.1, [])) ∧
    (∀ st2, Reaches (stop st e) st2 →
      (∀ t k, e ∉ depOf st2 t k) ∧
      (∀ f t k v st3 r procs, step f (.setT t k v) st2 = some (st3, r, procs) →
        ∀ b, (e, b) ∉ procs)) := by
  have hlook := (stop_lookup st e er h1 h2).1
  have hrm := stop_removes st e er h1 h2 h3
  have hslot : (stop st e).activeEffect ≠ some e := by
    rw [(stop_lookup st e er h1 h2).2.2]
    exact h4
  refine ⟨hrm, stop_inactive _ _ _ hlook rfl, hlook, ?_, ?_⟩
  · intro f
    rcases hI : step f (.progT er.fn Value.undefined) (stop st e) with _ | ⟨sx, rx, px⟩ <;>
      simp [step, hlook, hI]
  · intro st2 hr
    have hq : Quiescent e (stop st e) :=
      ⟨⟨⟨er.fn, er.scheduler, false, []⟩, hlook, rfl⟩, hrm, hslot⟩
    have hq2 := quiescent_reaches e (stop st e) st2 hq hr
    refine ⟨hq2.2.1, ?_⟩
    intro f t k v st3 r procs hsp b hb
    exact hq2.2.1 t k (setT_procs_sub f t k v st2 st3 r procs hsp (e, b) hb)

theorem C5_stop_semantics_witness :
    depsRecorded 0 stC1r ∧
    (0 : EffectId) ∉ depOf (stop stC1r 0) 0 "a" ∧
    stop (stop stC1r 0) 0 = stop stC1r 0 := by
  have h := C5_stop_semantics stC1r 0 ⟨fnC1, false, true, [(0, "flag"), (0, "a")]⟩
    (by rfl) (by rfl) (by decide) (by decide)
  exact ⟨by decide, h.1 0 "a", h.2.1⟩

/-- C6: `reactive` is idempotent with stable identity — re-wrapping the
returned view gives the identical view, wrapping the same raw target again
gives the same reference, and a non-object argument is returned
unchanged. -/
theorem C6_reactive_idempotent (st : RState) (t : TargetId)
    (h1 : RWF st) (h2 : t < st.nextId) :
    reactive (reactive st (.vobj t)).1 (reactive st (.vobj t)).2 =
      ((reactive st (.vobj t)).1, (reactive st (.vobj t)).2) ∧
    reactive (reactive st (.vobj t)).1 (.vobj t) = reactive st (.vobj t) ∧
    (∀ w : Value, (∀ t2, w ≠ .vobj t2) → reactive st w = (st, w)) := by
  obtain ⟨hwf1, hwf2, hwf3⟩ := h1
  have hnonobj : ∀ w : Value, (∀ t2, w ≠ .vobj t2) → reactive st w = (st, w) := by
    intro w hw
    cases w with
    | undefined => rfl
    | vint n => rfl
    | vstr s => rfl
    | vobj t2 => exact absurd rfl (hw t2)
  by_cases hp : (alookup st.proxies t).isSome
  · exact ⟨by simp [reactive, hp], by simp [reactive, hp], hnonobj⟩
  · rcases hm : alookup st.reactiveMap t with _ | p
    · have hne : st.nextId ≠ t := fun hh => absurd h2 (by rw [hh]; exact lt_irrefl t)
      refine ⟨?_, ?_, hnonobj⟩
      · simp [reactive, hp, hm, alookup_aset_self]
      · simp [reactive, hp, hm, alookup_aset_self, alookup_aset_ne _ _ _ _ hne]
    · have hpp : (alookup st.proxies p).isSome := hwf3 (t, p) (alookup_mem _ _ _ hm)
      refine ⟨?_, ?_, hnonobj⟩
      · simp [reactive, hp, hm, hpp]
      · simp [reactive, hp, hm]

/-- A factory state holding one raw target `2` already wrapped by proxy
`3`. -/
def stC6 : RState := ⟨[(2, 3)], [(3, 2)], 4⟩

theorem C6_reactive_idempotent_witness :
    RWF stC6 ∧ 2 < stC6.nextId ∧
    reactive (reactive stC6 (.vobj 2)).1 (.vobj 2) = reactive stC6 (.vobj 2) :=
  ⟨by decide, by decide, (C6_reactive_idempotent stC6 2 (by decide) (by decide)).2.1⟩
